import Mathlib

/-!
Verification of the instruction-encoding framework: bit layout model,
field/enum registries, bit-struct construction, and the decoder/matcher.

The `AGX` namespace embeds `src/asahi/isa/isa.py` and
`src/asahi/isa/test/disasm.py`; the `PCO` namespace embeds
`src/imagination/pco/pco_pygen_common.py`.  Python `dict`s (insertion
ordered) are modelled as association lists, Python `assert` failures and
uncaught exceptions as `Option.none`, and arbitrary-precision Python
integers as `Nat`/`Int`.
-/

/-! ## AGX bit layout model (`isa.py`) -/

/-- `BitRange` from `isa.py`: an inclusive bit range `start..end`
    (`end` is spelled `stop` since `end` is a Lean keyword).  The Python
    constructor asserts `start <= end`; construction through `mk'`
    models that assertion.  Coordinates are `Int` because the Python
    code parses (and `specialize`s) possibly-negative positions. -/
structure AGX.BitRange where
  start : Int
  stop : Int
deriving DecidableEq, Repr

/-- The asserting constructor `BitRange.__init__` (`assert start <= end`). -/
def AGX.BitRange.mk' (start stop : Int) : Option AGX.BitRange :=
  if start ≤ stop then some ⟨start, stop⟩ else none

/-- `self.size = end - start + 1` (computed when `start >= 0`). -/
def AGX.BitRange.size (r : AGX.BitRange) : Int :=
  r.stop - r.start + 1

/-- `self.size_mask = (1 << self.size) - 1`. -/
def AGX.BitRange.size_mask (r : AGX.BitRange) : Nat :=
  2 ^ r.size.toNat - 1

/-- `self.mask = self.size_mask << start`. -/
def AGX.BitRange.mask (r : AGX.BitRange) : Nat :=
  r.size_mask <<< r.start.toNat

/-- A parsed range specification: the source string `"N"` (single bit) or
    `"START:END"`; the surrounding textual format is external, so the
    specification is modelled after `int()` conversion. -/
inductive AGX.RangeSpec where
  | single (n : Int)
  | range (start stop : Int)
deriving DecidableEq, Repr

/-- `BitRange.parse`: `"START:END"` builds `BitRange(start, end)`;
    a single number `n` builds `BitRange(n, n)`. -/
def AGX.BitRange.parse : AGX.RangeSpec → Option AGX.BitRange
  | .single n => AGX.BitRange.mk' n n
  | .range a b => AGX.BitRange.mk' a b

/-- `Bits` from `isa.py`: a list of bit ranges (declaration order kept). -/
structure AGX.Bits where
  ranges : List AGX.BitRange
deriving DecidableEq, Repr

/-- `Bits.size`: sum of the range sizes. -/
def AGX.Bits.size (b : AGX.Bits) : Int :=
  (b.ranges.map AGX.BitRange.size).foldl (· + ·) 0

/-- `Bits.mask`: union of range masks; the source asserts
    `sum(masks) == union` (no overlap), modelled as `none` on failure. -/
def AGX.Bits.mask (b : AGX.Bits) : Option Nat :=
  let masks := b.ranges.map AGX.BitRange.mask
  let union := masks.foldl (· ||| ·) 0
  if masks.foldl (· + ·) 0 = union then some union else none

/-- One step of the `Bits.extract` loop:
    `accum |= ((x >> r.start) & r.size_mask) << n; n += r.size`. -/
def AGX.Bits.extractStep (x : Nat) (st : Nat × Nat) (r : AGX.BitRange) : Nat × Nat :=
  (st.1 ||| (((x >>> r.start.toNat) &&& r.size_mask) <<< st.2), st.2 + r.size.toNat)

/-- `Bits.extract(x)` from `isa.py`. -/
def AGX.Bits.extract (b : AGX.Bits) (x : Nat) : Nat :=
  (b.ranges.foldl (AGX.Bits.extractStep x) (0, 0)).1

/-- The specification's formula for `extract` (claim C5): the sum over the
    declared ranges `(s_i, z_i)` of `((x >> s_i) mod 2^(z_i))` shifted left
    by `z_1 + ... + z_(i-1)`, written as the equivalent right fold. -/
def AGX.claimSum (x : Nat) : List AGX.BitRange → Nat
  | [] => 0
  | r :: rs => ((x >>> r.start.toNat) % 2 ^ r.size.toNat) + (AGX.claimSum x rs <<< r.size.toNat)

/-! ## AGX exact bits, instructions and the matcher
    (`isa.py` and `test/disasm.py`) -/

/-- `parse_bitstring(bits)`: reverse the string, then set bit `i` for every
    `'1'`; any character other than `'0'`/`'1'` trips the assertion. -/
def AGX.parse_bitstring (s : String) : Option Nat :=
  s.data.reverse.enum.foldlM
    (fun value p =>
      if p.2 = '1' then some (value ||| (1 <<< p.1))
      else if p.2 = '0' then some value
      else none)
    0

/-- Python `int.bit_count()` (number of set bits).  Exact for values below
    `2^128`, the domain enforced by `deposit_bits`'s own assertion. -/
def AGX.bit_count (n : Nat) : Nat :=
  ((List.range 128).filter n.testBit).length

/-- `deposit_bits(mask, value)` from `isa.py`: spread the bits of `value`
    out according to the 1s in `mask` (a software `pdep`).  The source
    asserts `mask < (1 << 128)` up front; the closing assertion
    `(accum & ~mask) == 0` is the invariant proved below. -/
def AGX.deposit_bits (mask value : Nat) : Option Nat :=
  if mask < 1 <<< 128 then
    some (((List.range 128).foldl
      (fun (st : Nat × Nat) m =>
        if mask.testBit m then
          ((if value.testBit st.2 then st.1 ||| (1 <<< m) else st.1), st.2 + 1)
        else st)
      (0, 0)).1)
  else none

/-- `Exact`: the fixed-bit mask and expected value of an encoding. -/
structure AGX.Exact where
  mask : Nat
  value : Nat
deriving DecidableEq, Repr

/-- The invariant `value & ~mask == 0`, phrased on `Nat` as
    `value &&& mask = value`. -/
def AGX.Exact.wf (e : AGX.Exact) : Prop :=
  e.value &&& e.mask = e.value

/-- `Exact.union` (the source mutates `self`; modelled functionally). -/
def AGX.Exact.union (a b : AGX.Exact) : AGX.Exact :=
  ⟨a.mask ||| b.mask, a.value ||| b.value⟩

/-- `Exact.__init__` for an `<exact>` element: `mask` from the element's
    `bit` ranges, `bits` from its (substituted) text, with the assertion
    `len(text) == mask.bit_count()`, then `value = deposit_bits(mask, bits)`. -/
def AGX.Exact.ofElement (bits : AGX.Bits) (text : String) : Option AGX.Exact := do
  let mask ← bits.mask
  let b ← AGX.parse_bitstring text
  if text.length = AGX.bit_count mask then
    let v ← AGX.deposit_bits mask b
    return ⟨mask, v⟩
  else none

/-- `Exact.__init__` for a `<zero>` element: no text, `bits = 0`. -/
def AGX.Exact.ofZero (bits : AGX.Bits) : Option AGX.Exact := do
  let mask ← bits.mask
  let v ← AGX.deposit_bits mask 0
  return ⟨mask, v⟩

/-- `Modifier` from `isa.py` (attributes used downstream). -/
structure AGX.Modifier where
  name : String
  display : String
  kind : String
  bits : AGX.Bits
deriving DecidableEq, Repr

/-- `Immediate` from `isa.py`. -/
structure AGX.Immediate where
  name : String
  kind : String
  bits : AGX.Bits
  shift : Nat
deriving DecidableEq, Repr

/-- `Operand` from `isa.py`. -/
structure AGX.Operand where
  kind : String
  bits : AGX.Bits
  is_dest : Bool
deriving DecidableEq, Repr

/-- `Instruction` from `isa.py` (the fields set at the end of
    `Instruction.__init__`; `length_bit` is derivable from `length_spec`
    and omitted). -/
structure AGX.Instruction where
  name : String
  display : String
  length : List Nat
  length_spec : Option AGX.Modifier
  exact : AGX.Exact
  modifiers : List AGX.Modifier
  dests : List AGX.Operand
  sources : List AGX.Operand
  immediates : List AGX.Immediate
deriving DecidableEq, Repr

/-- `Instruction.mask`: the exact mask unioned with every modifier,
    immediate, source and destination field mask.  `Bits.mask` can
    assert (overlapping ranges), hence `Option`. -/
def AGX.Instruction.mask (i : AGX.Instruction) : Option Nat := do
  let parts := i.modifiers.map (·.bits) ++ i.immediates.map (·.bits) ++
    i.sources.map (·.bits) ++ i.dests.map (·.bits)
  let bits ← parts.mapM AGX.Bits.mask
  return i.exact.mask ||| bits.foldl (· ||| ·) 0

/-- The candidate length lookup in `match_instr`:
    `instr.length[instr.length_spec.bits.extract(raw) if instr.length_spec
    is not None else 0]`; an out-of-range index is an uncaught
    `IndexError` (`none`). -/
def AGX.instr_length (instr : AGX.Instruction) (raw : Nat) : Option Nat :=
  match instr.length_spec with
  | some m => instr.length.get? (m.bits.extract raw)
  | none => instr.length.get? 0

/-- `match_instr(raw)` from `test/disasm.py`: scan the table in order;
    truncate the word to the candidate's length; first candidate whose
    exact mask/value matches wins; otherwise `(2, None, raw)`. -/
def AGX.match_instr : List AGX.Instruction → Nat → Option (Nat × Option AGX.Instruction × Nat)
  | [], raw => some (2, none, raw)
  | instr :: rest, raw =>
    match AGX.instr_length instr raw with
    | none => none
    | some length =>
      let r := raw &&& ((1 <<< (length * 8)) - 1)
      if r &&& instr.exact.mask = instr.exact.value then some (length, some instr, r)
      else AGX.match_instr rest raw

/-- The candidate length used by `match_instr` (defined when the lookup
    succeeds). -/
def AGX.match_len (instr : AGX.Instruction) (raw : Nat) : Nat :=
  (AGX.instr_length instr raw).getD 0

/-- The word truncated to the candidate's length:
    `raw & ((1 << (length * 8)) - 1)`. -/
def AGX.trunc_word (instr : AGX.Instruction) (raw : Nat) : Nat :=
  raw &&& ((1 <<< (AGX.match_len instr raw * 8)) - 1)

/-- The match test of `match_instr`:
    `(r & instr.exact.mask) == instr.exact.value`. -/
def AGX.matches_word (instr : AGX.Instruction) (raw : Nat) : Bool :=
  AGX.trunc_word instr raw &&& instr.exact.mask == instr.exact.value

/-- The fixed fallback rendering returned by `disasm` when no instruction
    matches. -/
def AGX.unknown_instr_text : String := "<unknown instr>"

/-- The unexpected-bit computation at the end of `disasm`:
    `unexpected = raw & ~instr.mask()` followed by
    `[i for i in range(length * 8) if unexpected & (1 << i)]`
    (a bit survives iff set in `raw` and clear in the mask). -/
def AGX.unexpected_bits (length raw m : Nat) : List Nat :=
  (List.range (length * 8)).filter (fun i => raw.testBit i && ! m.testBit i)

/-- `disasm(raw_in)` from `test/disasm.py`, projected onto its match,
    length and warning behaviour: the rendered text is abstracted to the
    matched instruction (`none` stands for the constant fallback string
    `unknown_instr_text`); the per-operand text rendering is omitted.
    The returned length is negated when unexpected set bits remain. -/
def AGX.disasm (instrs : List AGX.Instruction) (raw_in : Nat) :
    Option (Int × Option AGX.Instruction × List Nat) := do
  let (length, oinstr, raw) ← AGX.match_instr instrs raw_in
  match oinstr with
  | none => return ((length : Int), none, [])
  | some instr => do
    let m ← instr.mask
    let unexpected := AGX.unexpected_bits length raw m
    return ((if unexpected.isEmpty then (length : Int) else -(length : Int)),
      some instr, unexpected)

/-! ## PCO field types, enums, pieces, fields and bit structs
    (`pco_pygen_common.py`) -/

/-- `BaseType` from `pco_pygen_common.py`. -/
inductive PCO.BaseType where
  | bool
  | uint
  | enum
deriving DecidableEq, Repr

mutual

/-- `Type` from `pco_pygen_common.py` (spelled `TypeM`; `Type` is a Lean
    keyword).  The presentation-only attributes (`check`, `encode`,
    `nzdefault`, `print_early`) are uninterpreted template strings and
    are omitted; `name` holds the computed C name. -/
inductive PCO.TypeM : Type where
  | mk (name : String) (base_type : PCO.BaseType) (num_bits : Option Nat)
      (dec_bits : Option Nat) (enum : Option PCO.EnumTypeM) : PCO.TypeM

/-- `EnumType` from `pco_pygen_common.py`: `elems` is the ordered key set
    (`None` for subtypes), plus the `is_bitset` flag and the `parent`
    link (`valid`/`unique_count` are derived caches, omitted). -/
inductive PCO.EnumTypeM : Type where
  | mk (name : String) (elems : Option (List String)) (is_bitset : Bool)
      (parent : Option PCO.TypeM) : PCO.EnumTypeM

end

def PCO.TypeM.name : PCO.TypeM → String
  | .mk n _ _ _ _ => n

def PCO.TypeM.base_type : PCO.TypeM → PCO.BaseType
  | .mk _ b _ _ _ => b

def PCO.TypeM.num_bits : PCO.TypeM → Option Nat
  | .mk _ _ nb _ _ => nb

def PCO.TypeM.dec_bits : PCO.TypeM → Option Nat
  | .mk _ _ _ db _ => db

def PCO.TypeM.enum : PCO.TypeM → Option PCO.EnumTypeM
  | .mk _ _ _ _ e => e

def PCO.EnumTypeM.name : PCO.EnumTypeM → String
  | .mk n _ _ _ => n

def PCO.EnumTypeM.elems : PCO.EnumTypeM → Option (List String)
  | .mk _ e _ _ => e

def PCO.EnumTypeM.is_bitset : PCO.EnumTypeM → Bool
  | .mk _ _ b _ => b

def PCO.EnumTypeM.parent : PCO.EnumTypeM → Option PCO.TypeM
  | .mk _ _ _ p => p

/-- `val_fits_in_bits(val, num_bits)`: `val < pow(2, num_bits)` — an upper
    bound only, no lower bound. -/
def PCO.val_fits_in_bits (val : Int) (num_bits : Nat) : Bool :=
  decide (val < 2 ^ num_bits)

/-- `enum_subtype(name, parent, num_bits)`: asserts, in order, that `name`
    is fresh in the `enums` registry, that the parent is an enum type,
    that the parent is not a bitset, and that the parent has a declared
    width strictly larger than `num_bits`; then registers the subtype
    enum (no elements, not a bitset, parent link) and the corresponding
    type via `type(...)` (which asserts freshness in `types`).  The two
    process-wide registries are passed explicitly as key lists. -/
def PCO.enum_subtype (types enums : List String) (name : String)
    (parent : PCO.TypeM) (num_bits : Nat) : Option (PCO.TypeM × PCO.EnumTypeM) :=
  if name ∈ enums then none
  else match parent.enum with
    | none => none
    | some pe =>
      if pe.is_bitset then none
      else match parent.num_bits with
        | none => none
        | some pb =>
          if pb > num_bits then
            let enum := PCO.EnumTypeM.mk ("pco_" ++ name) none false (some parent)
            if name ∈ types then none
            else some
              (PCO.TypeM.mk ("enum pco_" ++ name) .enum (some num_bits) none (some enum),
                enum)
          else none

/-- `BitPiece` from `pco_pygen_common.py`. -/
structure PCO.BitPiece where
  name : String
  byte : Nat
  hi_bit : Int
  lo_bit : Int
  num_bits : Nat
deriving DecidableEq, Repr

/-- A parsed pco bit-range specification: `"N"` or `"HI:LO"` (high bit
    written first), after `int()` conversion; more than one `:` is
    rejected by the source's first assertion and is unrepresentable here. -/
inductive PCO.RangeSpec where
  | single (n : Int)
  | range (hi lo : Int)
deriving DecidableEq, Repr

/-- `bit_piece(name, byte, bit_range)`: asserts
    `hi_bit < 8 and hi_bit >= 0 and lo_bit < 8 and lo_bit >= 0 and
    hi_bit >= lo_bit`; `num_bits = hi_bit - lo_bit + 1`. -/
def PCO.bit_piece (name : String) (byte : Nat) (bit_range : PCO.RangeSpec) :
    Option PCO.BitPiece :=
  let hl := match bit_range with
    | .single n => (n, n)
    | .range hi lo => (hi, lo)
  if hl.1 < 8 ∧ hl.1 ≥ 0 ∧ hl.2 < 8 ∧ hl.2 ≥ 0 ∧ hl.1 ≥ hl.2 then
    some ⟨name, byte, hl.1, hl.2, (hl.1 - hl.2 + 1).toNat⟩
  else none

/-- `BitField` from `pco_pygen_common.py`. -/
structure PCO.BitField where
  name : String
  field_type : PCO.TypeM
  pieces : List PCO.BitPiece
  reserved : Option Int

/-- `bit_field(name, bit_set_pieces, field_type, pieces, reserved)`:
    resolves the named pieces (a missing key is an uncaught `KeyError`),
    asserts the summed piece width equals the field type's width
    (`int == None` is `False`, so an undeclared type width also fails),
    and checks any reserved value with `val_fits_in_bits`. -/
def PCO.bit_field (name : String) (bit_set_pieces : List (String × PCO.BitPiece))
    (field_type : PCO.TypeM) (pieces : List String) (reserved : Option Int) :
    Option PCO.BitField := do
  let ps ← pieces.mapM (fun p => bit_set_pieces.lookup p)
  let total_bits := (ps.map PCO.BitPiece.num_bits).foldl (· + ·) 0
  if field_type.num_bits = some total_bits then
    match reserved with
    | some r =>
      if PCO.val_fits_in_bits r total_bits then some ⟨name, field_type, ps, reserved⟩
      else none
    | none => some ⟨name, field_type, ps, reserved⟩
  else none

/-- `BitSet` from `pco_pygen_common.py` (the `bit_structs`/`variants`
    registries it accumulates are passed to `bit_struct` explicitly). -/
structure PCO.BitSet where
  name : String
  pieces : List (String × PCO.BitPiece)
  fields : List (String × PCO.BitField)

/-- A fixed value in a `bit_struct` field mapping: a Python `str`, `bool`
    or `int` literal. -/
inductive PCO.FixedVal where
  | int (i : Int)
  | bool (b : Bool)
  | str (s : String)
deriving DecidableEq, Repr

/-- One entry of `field_mappings`: a bare string, a
    `(struct_field, field)` pair, or a `(struct_field, field, fixed)`
    triple (the source asserts tuples carry at most one fixed value). -/
inductive PCO.Mapping where
  | plain (f : String)
  | pair (struct_field f : String)
  | triple (struct_field f : String) (fixed : PCO.FixedVal)

/-- `BitStruct` from `pco_pygen_common.py`: each kept struct field maps to
    `(type name, field name, declared bit width)`. -/
structure PCO.BitStruct where
  name : String
  struct_fields : List (String × (String × String × Option Nat))
  num_bytes : Nat

/-- The per-mapping loop of `bit_struct`: validates each mapping and
    accumulates `struct_fields`, `all_pieces` (`(lo, hi, name)` tuples in
    whole-word bit coordinates) and `total_bits`. -/
def PCO.bit_struct_fields (bit_set : PCO.BitSet) :
    List PCO.Mapping → List (String × (String × String × Option Nat)) →
    List (Int × Int × String) → Nat →
    Option (List (String × (String × String × Option Nat)) × List (Int × Int × String) × Nat)
  | [], sfs, aps, tb => some (sfs, aps, tb)
  | m :: ms, sfs, aps, tb =>
    let sf_f_fv : String × String × Option PCO.FixedVal := match m with
      | .plain f => (f, f, none)
      | .pair sf f => (sf, f, none)
      | .triple sf f v => (sf, f, some v)
    let struct_field := sf_f_fv.1
    let fixed_value := sf_f_fv.2.2
    if struct_field ∈ sfs.map Prod.fst then none
    else match bit_set.fields.lookup sf_f_fv.2.1 with
      | none => none
      | some field =>
        let field_type := field.field_type
        let is_enum := field_type.base_type = PCO.BaseType.enum
        let fixed_ok : Option Unit := match fixed_value with
          | none => some ()
          | some fv =>
            if field.reserved ≠ none then none
            else match fv with
              | .str s =>
                if is_enum then
                  match field_type.enum with
                  | none => none
                  | some en => match en.elems with
                    | none => none
                    | some es => if s ∈ es then some () else none
                else none
              | .bool b =>
                match field_type.num_bits with
                | none => none
                | some nb =>
                  if PCO.val_fits_in_bits (if b then 1 else 0) nb then some () else none
              | .int i =>
                match field_type.num_bits with
                | none => none
                | some nb => if PCO.val_fits_in_bits i nb then some () else none
        match fixed_ok with
        | none => none
        | some _ =>
          let aps' := aps ++ field.pieces.map (fun p =>
            (p.lo_bit + 8 * (p.byte : Int), p.hi_bit + 8 * (p.byte : Int), p.name))
          match field_type.num_bits with
          | none => none
          | some nb =>
            let tb' := tb + nb
            if field.reserved = none ∧ fixed_value = none then
              let widened : Option PCO.TypeM :=
                if is_enum then
                  match field_type.enum with
                  | none => none
                  | some en => some (match en.parent with
                    | some par => par
                    | none => field_type)
                else some field_type
              match widened with
              | none => none
              | some ft =>
                let struct_field_bits := match ft.dec_bits with
                  | some db => some db
                  | none => ft.num_bits
                PCO.bit_struct_fields bit_set ms
                  (sfs ++ [(struct_field, (ft.name, struct_field, struct_field_bits))])
                  aps' tb'
            else
              PCO.bit_struct_fields bit_set ms sfs aps' tb'

/-- The pairwise overlap scan at the end of `bit_struct`: every ordered
    pair of `all_pieces` entries must be value-equal (`p0 == p1` on the
    Python tuples, which is skipped) or interval-disjoint
    (`p0[1] < p1[0] or p0[0] > p1[1]`). -/
def PCO.overlap_ok (aps : List (Int × Int × String)) : Bool :=
  aps.all (fun p0 => aps.all (fun p1 =>
    p0 == p1 || decide (p0.2.1 < p1.1) || decide (p0.1 > p1.2.1)))

/-- `bit_struct(name, bit_set, field_mappings)`: freshness of the struct
    name in the bit set's registry (passed as `existing`), the
    per-mapping loop, the overlap scan, and the byte-alignment assertion
    `(total_bits % 8) == 0`. -/
def PCO.bit_struct (existing : List String) (name : String) (bit_set : PCO.BitSet)
    (field_mappings : List PCO.Mapping) : Option PCO.BitStruct :=
  if name ∈ existing then none
  else match PCO.bit_struct_fields bit_set field_mappings [] [] 0 with
    | none => none
    | some (struct_fields, all_pieces, total_bits) =>
      if PCO.overlap_ok all_pieces then
        if total_bits % 8 = 0 then
          some ⟨bit_set.name ++ "_" ++ name, struct_fields, total_bits / 8⟩
        else none
      else none

/-- A sample 8-bit uint field type. -/
def PCO.exUint8 : PCO.TypeM :=
  PCO.TypeM.mk "unsigned" .uint (some 8) none none

/-- A sample bit set with one full-byte piece `p` and one 8-bit field `f`
    over it. -/
def PCO.exBitSet : PCO.BitSet :=
  { name := "pco_t",
    pieces := [("p", ⟨"p", 0, 7, 0, 8⟩)],
    fields := [("f", ⟨"f", PCO.exUint8, [⟨"p", 0, 7, 0, 8⟩], none⟩)] }

/-- A sample non-bitset parent enum type of width 2, for `enum_subtype`. -/
def PCO.exParent : PCO.TypeM :=
  PCO.TypeM.mk "enum pco_par" .enum (some 2) none
    (some (PCO.EnumTypeM.mk "pco_par" (some ["a", "b"]) false none))

/-- A sample bitset parent enum type of width 2, for `enum_subtype`. -/
def PCO.exBitsetParent : PCO.TypeM :=
  PCO.TypeM.mk "enum pco_bsp" .enum (some 2) none
    (some (PCO.EnumTypeM.mk "pco_bsp" (some ["a", "b"]) true none))

/-! ## Encoder/decoder round-trip over BitStruct piece layouts (claim C1)

The generated C encoder (`pco_isa.h.py` only templates it; the
`field.encoding` data it renders is not under `src/`) and the decoder are
modelled here over a common piece layout, following spec §4.1/§4.3. -/

/-- Modelled from the spec: a bit piece in whole-word coordinates
    (`start = 8 * byte + lo_bit`, `size = num_bits`); the byte-anchored
    form is `BitPiece`/`PCO.BitPiece`. -/
structure Enc.Piece where
  start : Nat
  size : Nat
deriving DecidableEq, Repr

/-- The mask covered by one piece. -/
def Enc.Piece.mask (p : Enc.Piece) : Nat :=
  (2 ^ p.size - 1) <<< p.start

/-- A bit occupied by one of the pieces. -/
def Enc.inPieces (ps : List Enc.Piece) (i : Nat) : Prop :=
  ∃ p ∈ ps, p.start ≤ i ∧ i < p.start + p.size

/-- Modelled from the spec: the per-field encoder (`encode_field` in the
    generated C, whose `field.encoding` table is missing from `src/`):
    for each piece in order, shift out the corresponding slice of the
    value — first piece takes the least-significant slice, matching
    `Bits.extract`'s low-to-high declaration order — and OR it in at the
    piece's offset. -/
def Enc.encField : List Enc.Piece → Nat → Nat
  | [], _ => 0
  | p :: ps, v => ((v &&& (2 ^ p.size - 1)) <<< p.start) ||| Enc.encField ps (v >>> p.size)

/-- Modelled from the spec: the BitStruct pack routine — an all-zero
    buffer ORed with every struct field's encoded pieces. -/
def Enc.pack : List (List Enc.Piece × Nat) → Nat
  | [] => 0
  | f :: fs => Enc.encField f.1 f.2 ||| Enc.pack fs

/-- The per-field decoder: `Bits.extract` from `isa.py` read over the
    same piece list (each piece contributes `(x >> start) & sizeMask`,
    concatenated in declaration order, first piece least significant). -/
def Enc.decField : List Enc.Piece → Nat → Nat
  | [], _ => 0
  | p :: ps, x => ((x >>> p.start) &&& (2 ^ p.size - 1)) ||| (Enc.decField ps x <<< p.size)

/-- Total bit width of a field's pieces. -/
def Enc.width : List Enc.Piece → Nat
  | [] => 0
  | p :: ps => p.size + Enc.width ps

/-- Interval disjointness of two pieces (the `bit_struct` overlap check's
    `p0[1] < p1[0] or p0[0] > p1[1]`, in half-open form). -/
def Enc.pdisj (p q : Enc.Piece) : Prop :=
  p.start + p.size ≤ q.start ∨ q.start + q.size ≤ p.start

instance (p q : Enc.Piece) : Decidable (Enc.pdisj p q) :=
  inferInstanceAs (Decidable (_ ∨ _))

/-- A concrete sample instruction (2 bytes long, exact mask `0xF`,
    exact value `0x5`, no operand fields), used to instantiate the
    matcher theorems on closed inputs. -/
def AGX.exInstr : AGX.Instruction :=
  { name := "nop", display := "nop", length := [2], length_spec := none,
    exact := ⟨15, 5⟩, modifiers := [], dests := [], sources := [],
    immediates := [] }

/-! ### Bitwise helper lemmas -/

theorem Nat.shiftRight_or_distrib (x y n : Nat) : (x ||| y) >>> n = (x >>> n) ||| (y >>> n) := by
  apply Nat.eq_of_testBit_eq
  intro i
  simp [Nat.testBit_shiftRight, Nat.testBit_or]

theorem Nat.shiftLeft_or_distrib (x y n : Nat) : (x ||| y) <<< n = (x <<< n) ||| (y <<< n) := by
  apply Nat.eq_of_testBit_eq
  intro i
  simp [Nat.testBit_shiftLeft, Nat.testBit_or, Bool.and_or_distrib_left]

theorem Nat.shiftLeft_shiftRight_cancel (x n : Nat) : (x <<< n) >>> n = x := by
  apply Nat.eq_of_testBit_eq
  intro i
  simp [Nat.testBit_shiftRight, Nat.testBit_shiftLeft]

/-- OR of a low part (below `2^n`) and a left-shifted part is addition. -/
theorem Nat.or_shiftLeft_eq_add {a : Nat} (b n : Nat) (ha : a < 2 ^ n) :
    a ||| (b <<< n) = a + (b <<< n) := by
  have hmod : (a ||| b <<< n) % 2 ^ n = a := by
    rw [← Nat.and_pow_two_sub_one_eq_mod, Nat.and_distrib_right,
      Nat.and_pow_two_sub_one_of_lt_two_pow ha, Nat.and_pow_two_sub_one_eq_mod,
      Nat.shiftLeft_eq, Nat.mul_mod_left, Nat.or_zero]
  have hdiv : (a ||| b <<< n) / 2 ^ n = b := by
    rw [← Nat.shiftRight_eq_div_pow, Nat.shiftRight_or_distrib,
      Nat.shiftLeft_shiftRight_cancel, Nat.shiftRight_eq_div_pow,
      Nat.div_eq_of_lt ha]
    simp
  calc a ||| b <<< n
      = (a ||| b <<< n) % 2 ^ n + 2 ^ n * ((a ||| b <<< n) / 2 ^ n) := (Nat.mod_add_div _ _).symm
    _ = a + (b <<< n) := by rw [hmod, hdiv, Nat.shiftLeft_eq, Nat.mul_comm]

theorem Nat.shiftLeft_shiftLeft_add (x a b : Nat) : (x <<< a) <<< b = x <<< (a + b) := by
  simp [Nat.shiftLeft_eq, Nat.pow_add, Nat.mul_assoc]

/-- Characterization of the `extract` fold with a general accumulator. -/
theorem AGX.extract_foldl (x : Nat) (rs : List AGX.BitRange) :
    ∀ acc n, acc < 2 ^ n →
      (rs.foldl (AGX.Bits.extractStep x) (acc, n)).1 = acc + (AGX.claimSum x rs <<< n) := by
  induction rs with
  | nil =>
    intro acc n _
    simp [AGX.claimSum]
  | cons r rs ih =>
    intro acc n hacc
    have hchunk : (x >>> r.start.toNat) &&& r.size_mask < 2 ^ r.size.toNat := by
      have := Nat.and_le_right (n := x >>> r.start.toNat) (m := r.size_mask)
      have hlt : r.size_mask < 2 ^ r.size.toNat := by
        unfold AGX.BitRange.size_mask
        exact Nat.sub_lt (Nat.pos_pow_of_pos _ (by norm_num)) (by norm_num)
      omega
    have hacc' : acc ||| (((x >>> r.start.toNat) &&& r.size_mask) <<< n) <
        2 ^ (n + r.size.toNat) := by
      rw [Nat.or_shiftLeft_eq_add _ _ hacc, Nat.shiftLeft_eq, Nat.pow_add]
      have h1 : ((x >>> r.start.toNat) &&& r.size_mask) * 2 ^ n ≤
          (2 ^ r.size.toNat - 1) * 2 ^ n :=
        Nat.mul_le_mul_right _ (by omega)
      have hexp : (2 ^ r.size.toNat - 1) * 2 ^ n =
          2 ^ r.size.toNat * 2 ^ n - 2 ^ n := by
        rw [Nat.sub_mul, Nat.one_mul]
      have hle : 2 ^ n ≤ 2 ^ r.size.toNat * 2 ^ n :=
        Nat.le_mul_of_pos_left _ (Nat.pos_pow_of_pos _ (by norm_num))
      have hcomm : 2 ^ n * 2 ^ r.size.toNat = 2 ^ r.size.toNat * 2 ^ n :=
        Nat.mul_comm _ _
      omega
    have step : List.foldl (AGX.Bits.extractStep x) (acc, n) (r :: rs) =
        List.foldl (AGX.Bits.extractStep x)
          (acc ||| (((x >>> r.start.toNat) &&& r.size_mask) <<< n), n + r.size.toNat) rs := rfl
    rw [step, ih _ _ hacc', Nat.or_shiftLeft_eq_add _ _ hacc, AGX.claimSum]
    rw [Nat.shiftLeft_eq, Nat.shiftLeft_eq, Nat.shiftLeft_eq, Nat.shiftLeft_eq,
      Nat.add_mul, Nat.pow_add]
    have hm : (x >>> r.start.toNat) &&& r.size_mask = (x >>> r.start.toNat) % 2 ^ r.size.toNat := by
      unfold AGX.BitRange.size_mask
      exact Nat.and_pow_two_sub_one_eq_mod _ _
    rw [hm]
    ring

/-- C5: `Bits.extract` concatenates the declared ranges' segments in
    declaration order, first range least significant. -/
theorem AGX.extract_eq_claimSum (b : AGX.Bits) (x : Nat)
    (hwf : ∀ r ∈ b.ranges, 0 ≤ r.start ∧ r.start ≤ r.stop) :
    b.extract x = AGX.claimSum x b.ranges := by
  have := AGX.extract_foldl x b.ranges 0 0 (by norm_num)
  simpa [AGX.Bits.extract] using this

/-! ### Set-bit inclusion helpers -/

theorem Nat.and_eq_self_iff_subset {x m : Nat} :
    x &&& m = x ↔ ∀ i, x.testBit i = true → m.testBit i = true := by
  constructor
  · intro h i hx
    have ht := congrArg (Nat.testBit · i) h
    simp only [Nat.testBit_and, hx, Bool.true_and] at ht
    exact ht
  · intro h
    apply Nat.eq_of_testBit_eq
    intro i
    cases hx : x.testBit i with
    | false => simp [Nat.testBit_and, hx]
    | true => simp [Nat.testBit_and, hx, h i hx]

/-- The `deposit_bits` loop only ever sets bits that are set in `mask`. -/
theorem AGX.deposit_fold_subset (mask value : Nat) (l : List Nat) :
    ∀ st : Nat × Nat, (∀ i, st.1.testBit i = true → mask.testBit i = true) →
      ∀ i, ((l.foldl
        (fun (st : Nat × Nat) m =>
          if mask.testBit m then
            ((if value.testBit st.2 then st.1 ||| (1 <<< m) else st.1), st.2 + 1)
          else st)
        st).1).testBit i = true → mask.testBit i = true := by
  induction l with
  | nil => intro st hst i hi; exact hst i hi
  | cons a l ih =>
    intro st hst i hi
    refine ih _ ?_ i hi
    intro j hj
    by_cases hma : mask.testBit a
    · by_cases hv : value.testBit st.2
      · simp only [hma, if_true, hv, List.foldl] at hj
        rcases (by simpa [Nat.testBit_or] using hj : st.1.testBit j = true ∨
            (1 <<< a).testBit j = true) with hc | hc
        · exact hst j hc
        · have : a = j := by
            have := hc
            rw [Nat.one_shiftLeft] at this
            simpa [Nat.testBit_two_pow] using this
          exact this ▸ hma
      · simp only [hma, if_true, hv, if_false] at hj
        exact hst j hj
    · simp only [hma, if_false] at hj
      exact hst j hj

/-- `deposit_bits` never sets a bit outside the given mask
    (the source's own closing assertion `(accum & ~mask) == 0`). -/
theorem AGX.deposit_bits_subset {mask value acc : Nat}
    (h : AGX.deposit_bits mask value = some acc) : acc &&& mask = acc := by
  unfold AGX.deposit_bits at h
  split at h
  · injection h with h
    subst h
    exact Nat.and_eq_self_iff_subset.mpr
      (AGX.deposit_fold_subset mask value (List.range 128) (0, 0)
        (by intro i hi; simp at hi))
  · exact absurd h (by simp)

/-- C9: every `Exact` built from a bit-string element has its value inside
    its mask (`value & ~mask == 0`, i.e. `value &&& mask = value`); the
    invariant is preserved by `Exact.union`; and the matcher test
    `(raw & mask) == value` can only succeed when the value lies inside
    the mask. -/
theorem AGX.exact_value_within_mask :
    (∀ (b : AGX.Bits) (t : String) (e : AGX.Exact),
      AGX.Exact.ofElement b t = some e → e.wf) ∧
    (∀ a b : AGX.Exact, a.wf → b.wf → (a.union b).wf) ∧
    (∀ (raw : Nat) (e : AGX.Exact), raw &&& e.mask = e.value →
      e.value &&& e.mask = e.value) := by
  refine ⟨?_, ?_, ?_⟩
  · intro b t e h
    simp only [AGX.Exact.ofElement, Option.pure_def, Option.bind_eq_bind,
      Option.bind_eq_some, Option.some.injEq] at h
    obtain ⟨mask, hbm, bits, hpb, hrest⟩ := h
    split at hrest
    · simp only [Option.pure_def, Option.bind_eq_bind, Option.bind_eq_some,
        Option.some.injEq] at hrest
      obtain ⟨v, hdp, he⟩ := hrest
      subst he
      exact AGX.deposit_bits_subset hdp
    · exact absurd hrest (by simp)
  · intro a b ha hb
    have ha' := Nat.and_eq_self_iff_subset.mp ha
    have hb' := Nat.and_eq_self_iff_subset.mp hb
    refine Nat.and_eq_self_iff_subset.mpr ?_
    intro i hi
    rcases (by simpa [AGX.Exact.union, Nat.testBit_or] using hi :
        a.value.testBit i = true ∨ b.value.testBit i = true) with hc | hc
    · simp [AGX.Exact.union, Nat.testBit_or, ha' i hc]
    · simp [AGX.Exact.union, Nat.testBit_or, hb' i hc]
  · intro raw e h
    conv_lhs => rw [← h]
    rw [Nat.and_assoc, Nat.and_self, h]

theorem AGX.exact_value_within_mask_witness : (AGX.Exact.mk 1 1).wf :=
  AGX.exact_value_within_mask.1 ⟨[⟨0, 0⟩]⟩ "1" ⟨1, 1⟩ (by decide)

/-! ### Matcher theorems -/

/-- C3 companion fact: a successful match truncates the word to the
    matched instruction's length. -/
theorem AGX.match_instr_trunc (instrs : List AGX.Instruction) (raw len : Nat)
    (instr : AGX.Instruction) (r : Nat)
    (h : AGX.match_instr instrs raw = some (len, some instr, r)) :
    r < 2 ^ (len * 8) := by
  induction instrs with
  | nil => simp [AGX.match_instr] at h
  | cons a rest ih =>
    unfold AGX.match_instr at h
    cases hl : AGX.instr_length a raw with
    | none => rw [hl] at h; simp at h
    | some length =>
      rw [hl] at h
      simp only at h
      split at h
      · injection h with h
        obtain ⟨h1, h2⟩ := Prod.mk.injEq .. ▸ h
        obtain ⟨h2, h3⟩ := Prod.mk.injEq .. ▸ h2
        subst h1
        rw [← h3, Nat.one_shiftLeft, Nat.and_pow_two_sub_one_eq_mod]
        exact Nat.mod_lt _ (Nat.pos_pow_of_pos _ (by norm_num))
      · exact ih h

/-- C8 companion fact: a fall-through only produces length `2` and the
    unmodified raw word. -/
theorem AGX.match_instr_fallthrough (instrs : List AGX.Instruction)
    (raw len r : Nat)
    (h : AGX.match_instr instrs raw = some (len, none, r)) :
    len = 2 ∧ r = raw := by
  induction instrs with
  | nil =>
    have h' : ((2 : Nat), (none : Option AGX.Instruction), raw) = (len, none, r) := by
      simpa [AGX.match_instr] using h
    exact ⟨(congrArg Prod.fst h').symm, (congrArg (fun p => p.2.2) h').symm⟩
  | cons a rest ih =>
    unfold AGX.match_instr at h
    cases hl : AGX.instr_length a raw with
    | none => rw [hl] at h; simp at h
    | some length =>
      rw [hl] at h
      simp only at h
      split at h
      · injection h with h
        obtain ⟨_, h2⟩ := Prod.mk.injEq .. ▸ h
        obtain ⟨h2, _⟩ := Prod.mk.injEq .. ▸ h2
        simp at h2
      · exact ih h

/-- C3: `match_instr` scans the table in declared order and returns the
    first candidate whose exact mask/value matches the (length-truncated)
    word; when two candidates both match, the earlier one is selected. -/
theorem AGX.match_instr_first (instrs : List AGX.Instruction) (raw : Nat)
    (h : ∀ i ∈ instrs, (AGX.instr_length i raw).isSome) :
    AGX.match_instr instrs raw = some (
      match instrs.find? (fun i => AGX.matches_word i raw) with
      | some i => (AGX.match_len i raw, some i, AGX.trunc_word i raw)
      | none => (2, none, raw)) := by
  induction instrs with
  | nil => simp [AGX.match_instr]
  | cons a rest ih =>
    obtain ⟨len, hlen⟩ := Option.isSome_iff_exists.mp (h a (List.mem_cons_self a rest))
    have hml : AGX.match_len a raw = len := by simp [AGX.match_len, hlen]
    have htw : AGX.trunc_word a raw = raw &&& ((1 <<< (len * 8)) - 1) := by
      simp [AGX.trunc_word, hml]
    by_cases hm : (raw &&& ((1 <<< (len * 8)) - 1)) &&& a.exact.mask = a.exact.value
    · have hfind : List.find? (fun i => AGX.matches_word i raw) (a :: rest) = some a :=
        List.find?_cons_of_pos _ (by simp [AGX.matches_word, htw, hm])
      rw [hfind]
      unfold AGX.match_instr
      rw [hlen]
      simp only [hm, if_true, hml, htw]
    · have hfind : List.find? (fun i => AGX.matches_word i raw) (a :: rest) =
          List.find? (fun i => AGX.matches_word i raw) rest :=
        List.find?_cons_of_neg _ (by simp [AGX.matches_word, htw, hm])
      rw [hfind]
      unfold AGX.match_instr
      rw [hlen]
      simp only [hm, if_false]
      exact ih (fun i hi => h i (List.mem_cons_of_mem a hi))

theorem AGX.match_instr_first_witness :
    AGX.match_instr [AGX.exInstr] 5 = some (
      match [AGX.exInstr].find? (fun i => AGX.matches_word i 5) with
      | some i => (AGX.match_len i 5, some i, AGX.trunc_word i 5)
      | none => (2, none, 5)) :=
  AGX.match_instr_first [AGX.exInstr] 5 (by decide)

/-- C4: when a word matches an instruction, `disasm` negates the returned
    length and reports a non-empty unexpected-bit list exactly when the
    truncated word has a set bit outside the instruction's total field
    mask; with no residual bit the length stays positive and no warning
    is produced. -/
theorem AGX.disasm_unexpected_flags (instrs : List AGX.Instruction)
    (raw_in len : Nat) (instr : AGX.Instruction) (r m : Nat)
    (hmatch : AGX.match_instr instrs raw_in = some (len, some instr, r))
    (hmask : instr.mask = some m) (hpos : 0 < len) :
    ((∃ i, r.testBit i = true ∧ m.testBit i = false) →
      AGX.disasm instrs raw_in =
        some (-(len : Int), some instr, AGX.unexpected_bits len r m) ∧
      AGX.unexpected_bits len r m ≠ []) ∧
    ((∀ i, r.testBit i = true → m.testBit i = true) →
      AGX.disasm instrs raw_in = some ((len : Int), some instr, []) ∧
      (0 : Int) < (len : Int)) := by
  have hub : AGX.disasm instrs raw_in = some
      ((if (AGX.unexpected_bits len r m).isEmpty then (len : Int) else -(len : Int)),
        some instr, AGX.unexpected_bits len r m) := by
    simp [AGX.disasm, hmatch, hmask]
  constructor
  · rintro ⟨i, hri, hmi⟩
    have hrlt := AGX.match_instr_trunc instrs raw_in len instr r hmatch
    have hilt : i < len * 8 := by
      have h2i : 2 ^ i ≤ r := Nat.testBit_implies_ge hri
      by_contra hge
      push_neg at hge
      have : 2 ^ (len * 8) ≤ 2 ^ i := Nat.pow_le_pow_right (by norm_num) hge
      omega
    have hmem : i ∈ AGX.unexpected_bits len r m := by
      unfold AGX.unexpected_bits
      refine List.mem_filter.mpr ⟨List.mem_range.mpr hilt, ?_⟩
      simp [hri, hmi]
    have hne : AGX.unexpected_bits len r m ≠ [] := List.ne_nil_of_mem hmem
    have hie : (AGX.unexpected_bits len r m).isEmpty = false := by
      cases hcase : (AGX.unexpected_bits len r m).isEmpty
      · rfl
      · exact absurd (List.isEmpty_iff.mp hcase) hne
    exact ⟨by simpa [hie] using hub, hne⟩
  · intro hall
    have hempty : AGX.unexpected_bits len r m = [] := by
      unfold AGX.unexpected_bits
      refine List.filter_eq_nil_iff.mpr ?_
      intro a _
      by_cases hra : r.testBit a
      · simp [hra, hall a hra]
      · simp [hra]
    rw [hempty] at hub
    exact ⟨by simpa using hub, Int.natCast_pos.mpr hpos⟩

theorem AGX.disasm_unexpected_flags_witness :
    AGX.disasm [AGX.exInstr] 5 = some ((2 : Int), some AGX.exInstr, []) ∧
    (0 : Int) < ((2 : Nat) : Int) :=
  (AGX.disasm_unexpected_flags [AGX.exInstr] 5 2 AGX.exInstr 5 15
      (by decide) (by decide) (by decide)).2
    (Nat.and_eq_self_iff_subset.mp (by decide))

/-- C8: when no instruction's exact mask/value matches, `disasm` does not
    fail: it yields the fixed fallback rendering (`"<unknown instr>"`),
    a candidate length within 1–2 bytes (always 2), and the `none`
    marker signalling the error upstream so the caller can resync. -/
theorem AGX.disasm_no_match (instrs : List AGX.Instruction)
    (raw_in len r : Nat)
    (h : AGX.match_instr instrs raw_in = some (len, none, r)) :
    AGX.disasm instrs raw_in = some ((len : Int), none, []) ∧
    1 ≤ len ∧ len ≤ 2 ∧ AGX.unknown_instr_text = "<unknown instr>" := by
  obtain ⟨hlen, hr⟩ := AGX.match_instr_fallthrough instrs raw_in len r h
  subst hlen
  refine ⟨?_, by norm_num, by norm_num, rfl⟩
  simp [AGX.disasm, h]

theorem AGX.disasm_no_match_witness :
    AGX.disasm [AGX.exInstr] 16 = some ((2 : Int), none, []) ∧
    1 ≤ 2 ∧ 2 ≤ 2 ∧ AGX.unknown_instr_text = "<unknown instr>" :=
  AGX.disasm_no_match [AGX.exInstr] 16 2 16 (by decide)

theorem AGX.extract_eq_claimSum_witness :
    AGX.Bits.extract ⟨[⟨0, 3⟩, ⟨8, 11⟩]⟩ 3855 =
      AGX.claimSum 3855 [⟨0, 3⟩, ⟨8, 11⟩] :=
  AGX.extract_eq_claimSum ⟨[⟨0, 3⟩, ⟨8, 11⟩]⟩ 3855 (by decide)

/-! ### PCO theorems -/

/-- C2 (failing input): mapping the same bit-set field under two struct
    field names duplicates its piece in `all_pieces`; the overlap scan
    skips value-equal tuples, so `bit_struct` succeeds even though the
    two mapped fields' pieces fully overlap (intervals `[0,7]`/`[0,7]`
    are not disjoint), contradicting the fatal-overlap rule. -/
theorem PCO.bit_struct_overlap_slips :
    PCO.bit_struct [] "cex" PCO.exBitSet
        [PCO.Mapping.pair "a" "f", PCO.Mapping.pair "b" "f"] =
      some ⟨"pco_t_cex",
        [("a", ("unsigned", "a", some 8)), ("b", ("unsigned", "b", some 8))], 2⟩ ∧
    PCO.bit_struct_fields PCO.exBitSet
        [PCO.Mapping.pair "a" "f", PCO.Mapping.pair "b" "f"] [] [] 0 =
      some ([("a", ("unsigned", "a", some 8)), ("b", ("unsigned", "b", some 8))],
        [((0 : Int), (7 : Int), "p"), (0, 7, "p")], 16) ∧
    ¬ ((7 : Int) < 0 ∨ (0 : Int) > 7) :=
  ⟨rfl, rfl, by norm_num⟩

/-- C6 (counterexample): the asahi whole-field parser enforces no upper
    bound at all — a range reaching bit 200, far beyond the 128-bit word
    limit (`deposit_bits` caps masks at `2^128`), parses successfully
    instead of failing. -/
theorem AGX.parse_out_of_word_cex :
    AGX.BitRange.parse (AGX.RangeSpec.range 0 200) = some ⟨0, 200⟩ ∧
    ¬ ((200 : Int) < 128) :=
  ⟨rfl, by norm_num⟩

/-- C6 (amended): parsing accepts a single bit or an inclusive range and
    fails when the high end is below the low end; for a pco bit piece it
    additionally fails when any bit lies outside `[0,8)`; the asahi
    whole-field parser enforces no word-size bound; on success the size
    is `HI-LO+1` and the mask `((1<<size)-1) << LO`. -/
theorem PCO.parse_bit_range_amended :
    (∀ name byte (hi lo : Int),
      (PCO.bit_piece name byte (.range hi lo)).isSome = true ↔
        (hi < 8 ∧ hi ≥ 0 ∧ lo < 8 ∧ lo ≥ 0 ∧ hi ≥ lo)) ∧
    (∀ name byte (hi lo : Int) p,
      PCO.bit_piece name byte (.range hi lo) = some p →
      p.num_bits = (hi - lo + 1).toNat ∧ p.hi_bit = hi ∧ p.lo_bit = lo) ∧
    (∀ s e : Int, (AGX.BitRange.parse (.range s e)).isSome = true ↔ s ≤ e) ∧
    (∀ n : Int, (AGX.BitRange.parse (.single n)).isSome = true) ∧
    (∀ (s e : Int) r, AGX.BitRange.parse (.range s e) = some r →
      r.size = e - s + 1 ∧
      r.mask = ((1 <<< r.size.toNat) - 1) <<< r.start.toNat) := by
  refine ⟨?_, ?_, ?_, ?_, ?_⟩
  · intro name byte hi lo
    by_cases hcond : hi < 8 ∧ hi ≥ 0 ∧ lo < 8 ∧ lo ≥ 0 ∧ hi ≥ lo
    · simp [PCO.bit_piece, hcond]
    · simp only [PCO.bit_piece, hcond, if_false]
      simpa using hcond
  · intro name byte hi lo p h
    by_cases hcond : hi < 8 ∧ hi ≥ 0 ∧ lo < 8 ∧ lo ≥ 0 ∧ hi ≥ lo
    · simp [PCO.bit_piece, hcond] at h
      subst h
      exact ⟨rfl, rfl, rfl⟩
    · simp [PCO.bit_piece, hcond] at h
  · intro s e
    by_cases hcond : s ≤ e
    · simp [AGX.BitRange.parse, AGX.BitRange.mk', hcond]
    · simp [AGX.BitRange.parse, AGX.BitRange.mk', hcond]
  · intro n
    simp [AGX.BitRange.parse, AGX.BitRange.mk']
  · intro s e r h
    by_cases hcond : s ≤ e
    · simp [AGX.BitRange.parse, AGX.BitRange.mk', hcond] at h
      subst h
      refine ⟨rfl, ?_⟩
      unfold AGX.BitRange.mask AGX.BitRange.size_mask
      rw [Nat.one_shiftLeft]
    · simp [AGX.BitRange.parse, AGX.BitRange.mk', hcond] at h

theorem PCO.parse_bit_range_amended_witness :
    (PCO.BitPiece.mk "x" 0 7 3 5).num_bits = ((7 : Int) - 3 + 1).toNat ∧
    (PCO.BitPiece.mk "x" 0 7 3 5).hi_bit = 7 ∧
    (PCO.BitPiece.mk "x" 0 7 3 5).lo_bit = 3 :=
  PCO.parse_bit_range_amended.2.1 "x" 0 7 3 ⟨"x", 0, 7, 3, 5⟩ (by rfl)

/-- C7: `enum_subtype` fails when the parent is a bitset enum, has no
    declared width, or is not strictly wider than the subtype; on
    success it registers a non-bitset enum of the narrower width whose
    parent link is the wider enum type. -/
theorem PCO.enum_subtype_spec :
    (∀ types enums name (parent : PCO.TypeM) num_bits pe,
      parent.enum = some pe → pe.is_bitset = true →
      PCO.enum_subtype types enums name parent num_bits = none) ∧
    (∀ types enums name (parent : PCO.TypeM) num_bits,
      parent.num_bits = none →
      PCO.enum_subtype types enums name parent num_bits = none) ∧
    (∀ types enums name (parent : PCO.TypeM) num_bits pb,
      parent.num_bits = some pb → ¬ num_bits < pb →
      PCO.enum_subtype types enums name parent num_bits = none) ∧
    (∀ types enums name (parent : PCO.TypeM) num_bits t e,
      PCO.enum_subtype types enums name parent num_bits = some (t, e) →
      e.is_bitset = false ∧ e.parent = some parent ∧
      t.num_bits = some num_bits ∧ t.base_type = .enum ∧ t.enum = some e) := by
  refine ⟨?_, ?_, ?_, ?_⟩
  · intro types enums name parent num_bits pe hpe hbs
    simp [PCO.enum_subtype, hpe, hbs]
  · intro types enums name parent num_bits hnb
    cases hpe : parent.enum with
    | none => simp [PCO.enum_subtype, hpe]
    | some pe => simp [PCO.enum_subtype, hpe, hnb]
  · intro types enums name parent num_bits pb hnb hlt
    cases hpe : parent.enum with
    | none => simp [PCO.enum_subtype, hpe]
    | some pe => simp [PCO.enum_subtype, hpe, hnb, hlt]
  · intro types enums name parent num_bits t e h
    unfold PCO.enum_subtype at h
    split at h
    · exact absurd h (by simp)
    · split at h
      next => exact absurd h (by simp)
      next pe =>
        split at h
        · exact absurd h (by simp)
        · split at h
          next => exact absurd h (by simp)
          next pb =>
            split at h
            · split at h
              · exact absurd h (by simp)
              · injection h with h
                obtain ⟨ht, he⟩ := Prod.mk.injEq .. ▸ h
                subst ht
                subst he
                exact ⟨rfl, rfl, rfl, rfl, rfl⟩
            · exact absurd h (by simp)

theorem PCO.enum_subtype_spec_witness :
    PCO.enum_subtype [] [] "sub" PCO.exBitsetParent 1 = none :=
  PCO.enum_subtype_spec.1 [] [] "sub" PCO.exBitsetParent 1
    (PCO.EnumTypeM.mk "pco_bsp" (some ["a", "b"]) true none) rfl rfl

/-- C10: `val_fits_in_bits` checks only the upper bound `val < 2^num_bits`
    and imposes no lower bound, so every negative value passes for any
    width; consequently a negative reserved value never causes
    `bit_field`'s width validation to reject. -/
theorem PCO.val_fits_spec :
    (∀ (v : Int) (n : Nat), PCO.val_fits_in_bits v n = true ↔ v < 2 ^ n) ∧
    (∀ (v : Int) (n : Nat), v < 0 → PCO.val_fits_in_bits v n = true) ∧
    (∀ name bsp (ft : PCO.TypeM) pieces (r : Int), r < 0 →
      (PCO.bit_field name bsp ft pieces (some r)).isSome =
        (PCO.bit_field name bsp ft pieces none).isSome) := by
  have hval : ∀ (v : Int) (n : Nat), v < 0 → PCO.val_fits_in_bits v n = true := by
    intro v n hv
    have hp : (0 : Int) < 2 ^ n := by positivity
    simp only [PCO.val_fits_in_bits, decide_eq_true_eq]
    omega
  refine ⟨?_, hval, ?_⟩
  · intro v n
    simp [PCO.val_fits_in_bits]
  · intro name bsp ft pieces r hr
    unfold PCO.bit_field
    cases hmp : pieces.mapM (fun p => bsp.lookup p) with
    | none => simp [hmp]
    | some ps =>
      simp only [hmp, Option.bind_eq_bind, Option.some_bind]
      split
      · have hv := hval r ((ps.map PCO.BitPiece.num_bits).foldl (· + ·) 0) hr
        simp [hv]
      · rfl

theorem PCO.val_fits_spec_witness : PCO.val_fits_in_bits (-5) 3 = true :=
  PCO.val_fits_spec.2.1 (-5) 3 (by norm_num)

/-! ### Round-trip theorems (claim C1) -/

theorem Enc.pdisj_not_both {p q : Enc.Piece} (h : Enc.pdisj p q) {i : Nat}
    (hp : p.start ≤ i ∧ i < p.start + p.size)
    (hq : q.start ≤ i ∧ i < q.start + q.size) : False := by
  rcases h with h | h <;> omega

/-- Every bit the field encoder sets lies inside one of its pieces. -/
theorem Enc.testBit_encField {ps : List Enc.Piece} {v i : Nat}
    (h : (Enc.encField ps v).testBit i = true) : Enc.inPieces ps i := by
  induction ps generalizing v with
  | nil => simp [Enc.encField] at h
  | cons p ps ih =>
    rcases (by simpa [Enc.encField, Nat.testBit_or] using h :
        (((v &&& (2 ^ p.size - 1)) <<< p.start).testBit i = true) ∨
          ((Enc.encField ps (v >>> p.size)).testBit i = true)) with hc | hc
    · have hc' := hc
      simp only [Nat.testBit_shiftLeft, Nat.testBit_and,
        Nat.testBit_two_pow_sub_one, Bool.and_eq_true, decide_eq_true_eq] at hc'
      exact ⟨p, List.mem_cons_self p ps, by omega⟩
    · obtain ⟨q, hq, hcov⟩ := ih hc
      exact ⟨q, List.mem_cons_of_mem p hq, hcov⟩

/-- The field decoder returns zero on a word with no bits in its pieces. -/
theorem Enc.decField_eq_zero {ps : List Enc.Piece} {x : Nat}
    (h : ∀ i, x.testBit i = true → ¬ Enc.inPieces ps i) :
    Enc.decField ps x = 0 := by
  induction ps with
  | nil => rfl
  | cons p ps ih =>
    have hchunk : (x >>> p.start) &&& (2 ^ p.size - 1) = 0 := by
      apply Nat.eq_of_testBit_eq
      intro j
      simp only [Nat.testBit_and, Nat.testBit_shiftRight,
        Nat.testBit_two_pow_sub_one, Nat.zero_testBit]
      cases hx : x.testBit (p.start + j) with
      | false => simp
      | true =>
        have hnem := h _ hx
        have hj : ¬ j < p.size := by
          intro hlt
          exact hnem ⟨p, List.mem_cons_self p ps, by omega⟩
        simp [hj]
    have hrest : Enc.decField ps x = 0 := by
      refine ih ?_
      intro i hi hip
      obtain ⟨q, hq, hcov⟩ := hip
      exact h i hi ⟨q, List.mem_cons_of_mem p hq, hcov⟩
    show ((x >>> p.start) &&& (2 ^ p.size - 1)) ||| (Enc.decField ps x <<< p.size) = 0
    rw [hchunk, hrest, Nat.zero_shiftLeft, Nat.or_zero]

/-- The field decoder distributes over bitwise OR of the word. -/
theorem Enc.decField_or (ps : List Enc.Piece) (x y : Nat) :
    Enc.decField ps (x ||| y) = Enc.decField ps x ||| Enc.decField ps y := by
  induction ps with
  | nil => simp [Enc.decField]
  | cons p ps ih =>
    show (((x ||| y) >>> p.start) &&& (2 ^ p.size - 1)) |||
        (Enc.decField ps (x ||| y) <<< p.size) = _
    rw [Nat.shiftRight_or_distrib, Nat.and_distrib_right, ih,
      Nat.shiftLeft_or_distrib]
    show _ = (((x >>> p.start) &&& (2 ^ p.size - 1)) ||| (Enc.decField ps x <<< p.size)) |||
      (((y >>> p.start) &&& (2 ^ p.size - 1)) ||| (Enc.decField ps y <<< p.size))
    apply Nat.eq_of_testBit_eq
    intro i
    simp only [Nat.testBit_or]
    cases ((x >>> p.start) &&& (2 ^ p.size - 1)).testBit i <;>
      cases ((y >>> p.start) &&& (2 ^ p.size - 1)).testBit i <;>
      cases (Enc.decField ps x <<< p.size).testBit i <;>
      cases (Enc.decField ps y <<< p.size).testBit i <;> rfl

/-- Low bits and shifted-up high bits of `v` recombine to `v` modulo the
    combined width. -/
theorem Nat.lowbits_or_highbits (v z w : Nat) :
    (v &&& (2 ^ z - 1)) ||| (((v >>> z) % 2 ^ w) <<< z) = v % 2 ^ (z + w) := by
  apply Nat.eq_of_testBit_eq
  intro i
  simp only [Nat.testBit_or, Nat.testBit_and, Nat.testBit_two_pow_sub_one,
    Nat.testBit_shiftLeft, Nat.testBit_mod_two_pow, Nat.testBit_shiftRight]
  rcases Nat.lt_or_ge i z with h1 | h1
  · have h2 : i < z + w := by omega
    have h3 : ¬ z ≤ i := by omega
    simp [h1, h2, h3]
  · have h4 : z + (i - z) = i := by omega
    have h7 : ¬ i < z := by omega
    by_cases h5 : i - z < w
    · have h6 : i < z + w := by omega
      simp [h7, h1, h5, h6, h4]
    · have h6 : ¬ i < z + w := by omega
      simp [h7, h1, h5, h6]

/-- Decoding a field from its own encoding recovers the value modulo the
    field width, provided the field's pieces are pairwise disjoint. -/
theorem Enc.decField_encField_self (ps : List Enc.Piece) (v : Nat)
    (hd : ps.Pairwise Enc.pdisj) :
    Enc.decField ps (Enc.encField ps v) = v % 2 ^ Enc.width ps := by
  induction ps generalizing v with
  | nil => simp [Enc.decField, Enc.width, Nat.mod_one]
  | cons p ps ih =>
    obtain ⟨hp, hps⟩ := List.pairwise_cons.mp hd
    have hCchunk : (((v &&& (2 ^ p.size - 1)) <<< p.start) >>> p.start) &&&
        (2 ^ p.size - 1) = v &&& (2 ^ p.size - 1) := by
      rw [Nat.shiftLeft_shiftRight_cancel, Nat.and_assoc, Nat.and_self]
    have hRchunk : ((Enc.encField ps (v >>> p.size)) >>> p.start) &&&
        (2 ^ p.size - 1) = 0 := by
      apply Nat.eq_of_testBit_eq
      intro j
      simp only [Nat.testBit_and, Nat.testBit_shiftRight,
        Nat.testBit_two_pow_sub_one, Nat.zero_testBit]
      cases hR : (Enc.encField ps (v >>> p.size)).testBit (p.start + j) with
      | false => simp
      | true =>
        obtain ⟨q, hq, hcov⟩ := Enc.testBit_encField hR
        have hj : ¬ j < p.size := by
          intro hlt
          exact Enc.pdisj_not_both (hp q hq) (by omega) hcov
        simp [hj]
    have hdecC : Enc.decField ps ((v &&& (2 ^ p.size - 1)) <<< p.start) = 0 := by
      refine Enc.decField_eq_zero ?_
      intro i hi hip
      obtain ⟨q, hq, hcov⟩ := hip
      have hi' := hi
      simp only [Nat.testBit_shiftLeft, Nat.testBit_and,
        Nat.testBit_two_pow_sub_one, Bool.and_eq_true, decide_eq_true_eq] at hi'
      exact Enc.pdisj_not_both (hp q hq) (by omega) hcov
    have hdecR : Enc.decField ps (Enc.encField ps (v >>> p.size)) =
        (v >>> p.size) % 2 ^ Enc.width ps := ih _ hps
    show ((((v &&& (2 ^ p.size - 1)) <<< p.start) ||| Enc.encField ps (v >>> p.size)) >>>
        p.start &&& (2 ^ p.size - 1)) |||
      (Enc.decField ps (((v &&& (2 ^ p.size - 1)) <<< p.start) |||
        Enc.encField ps (v >>> p.size)) <<< p.size) = v % 2 ^ Enc.width (p :: ps)
    rw [Nat.shiftRight_or_distrib, Nat.and_distrib_right, hCchunk, hRchunk,
      Nat.or_zero, Enc.decField_or, hdecC, hdecR, Nat.zero_or]
    show (v &&& (2 ^ p.size - 1)) ||| (((v >>> p.size) % 2 ^ Enc.width ps) <<< p.size) = _
    rw [Nat.lowbits_or_highbits]
    rfl

/-- Every bit `pack` sets lies inside some packed field's pieces. -/
theorem Enc.testBit_pack {fs : List (List Enc.Piece × Nat)} {i : Nat}
    (h : (Enc.pack fs).testBit i = true) : ∃ f ∈ fs, Enc.inPieces f.1 i := by
  induction fs with
  | nil => simp [Enc.pack] at h
  | cons g fs ih =>
    rcases (by simpa [Enc.pack, Nat.testBit_or] using h :
        ((Enc.encField g.1 g.2).testBit i = true) ∨ ((Enc.pack fs).testBit i = true)) with hc | hc
    · exact ⟨g, List.mem_cons_self g fs, Enc.testBit_encField hc⟩
    · obtain ⟨f, hf, hcov⟩ := ih hc
      exact ⟨f, List.mem_cons_of_mem g hf, hcov⟩

/-- C1 (round-trip): over one BitStruct layout — a list of fields, each a
    list of bit pieces with an assigned value — with pairwise-disjoint
    pieces within and across fields and every value fitting its field
    width, extracting any field from the packed word returns exactly the
    value that was encoded: the decoder is a logical inverse of the
    encoder over the same piece layout. -/
theorem Enc.roundtrip (fs : List (List Enc.Piece × Nat))
    (hintra : ∀ f ∈ fs, f.1.Pairwise Enc.pdisj)
    (hinter : fs.Pairwise (fun f g => ∀ p ∈ f.1, ∀ q ∈ g.1, Enc.pdisj p q))
    (hfit : ∀ f ∈ fs, f.2 < 2 ^ Enc.width f.1) :
    ∀ f ∈ fs, Enc.decField f.1 (Enc.pack fs) = f.2 := by
  induction fs with
  | nil => intro f hf; cases hf
  | cons g fs ih =>
    obtain ⟨hg_inter, hfs_inter⟩ := List.pairwise_cons.mp hinter
    intro f hf
    have hsplit : Enc.pack (g :: fs) = Enc.encField g.1 g.2 ||| Enc.pack fs := rfl
    rw [hsplit, Enc.decField_or]
    rcases List.mem_cons.mp hf with rfl | hf'
    · have hself : Enc.decField f.1 (Enc.encField f.1 f.2) = f.2 := by
        rw [Enc.decField_encField_self _ _ (hintra f (List.mem_cons_self f fs))]
        exact Nat.mod_eq_of_lt (hfit f (List.mem_cons_self f fs))
      have hzero : Enc.decField f.1 (Enc.pack fs) = 0 := by
        refine Enc.decField_eq_zero ?_
        intro i hi hip
        obtain ⟨f', hf', hcov'⟩ := Enc.testBit_pack hi
        obtain ⟨q, hq, hqcov⟩ := hcov'
        obtain ⟨p, hp, hpcov⟩ := hip
        exact Enc.pdisj_not_both (hg_inter f' hf' p hp q hq) hpcov hqcov
      rw [hself, hzero, Nat.or_zero]
    · have hzero : Enc.decField f.1 (Enc.encField g.1 g.2) = 0 := by
        refine Enc.decField_eq_zero ?_
        intro i hi hip
        obtain ⟨q, hq, hqcov⟩ := hip
        obtain ⟨p, hp, hpcov⟩ := Enc.testBit_encField hi
        exact Enc.pdisj_not_both (hg_inter f hf' p hp q hq) hpcov hqcov
      have hrest : Enc.decField f.1 (Enc.pack fs) = f.2 :=
        ih (fun f' h' => hintra f' (List.mem_cons_of_mem g h'))
          hfs_inter (fun f' h' => hfit f' (List.mem_cons_of_mem g h')) f hf'
      rw [hzero, hrest, Nat.zero_or]

theorem Enc.roundtrip_witness :
    Enc.decField [⟨0, 2⟩, ⟨7, 1⟩] (Enc.pack [([⟨0, 2⟩, ⟨7, 1⟩], 5), ([⟨8, 4⟩], 9)]) = 5 ∧
    Enc.decField [⟨8, 4⟩] (Enc.pack [([⟨0, 2⟩, ⟨7, 1⟩], 5), ([⟨8, 4⟩], 9)]) = 9 :=
  ⟨Enc.roundtrip [([⟨0, 2⟩, ⟨7, 1⟩], 5), ([⟨8, 4⟩], 9)]
      (by decide) (by decide) (by decide) ([⟨0, 2⟩, ⟨7, 1⟩], 5) (by decide),
    Enc.roundtrip [([⟨0, 2⟩, ⟨7, 1⟩], 5), ([⟨8, 4⟩], 9)]
      (by decide) (by decide) (by decide) ([⟨8, 4⟩], 9) (by decide)⟩
